import Mathlib

/-!
Verification of the dynamic cycling-route planner (src/dag.py).

The embedding covers the core of the program: the stochastic edge-weight
policy (assign_dynamic_weights, lines 45-68), the rollout evaluator and the
online planning loop (online_planning, lines 87-128).  Machine reals are
modelled by rationals; the +infinity sentinel by the top element of
WithTop Rat.  The ambient random number generator is modelled by an explicit
stream of per-edge blocking decisions (draws : Nat -> Bool) together with a
counter threaded through the computation; each whole-graph redraw consumes
one decision per edge, in edge order, matching the single random.random()
call per edge of the source.  Fallible operations (the ZeroDivisionError at
rollouts = 0, and the fuel guard of the loop embedding) return Except.
-/

namespace CyclingNav

abbrev Node := ℕ

/-- An edge of the multigraph: endpoints, the optional `length` attribute
(the source reads it with `data.get("length", 1)`), the `highway` road class
and the optional `highway_penalty` attribute
(read with `data.get("highway_penalty", 2.5)`). -/
structure Edge where
  u : Node
  v : Node
  length : Option ℚ
  highway : String
  penalty : Option ℚ
deriving Repr, DecidableEq

/-- A directed multigraph, as handed to the planner.  The edge list order
models networkx insertion order (which fixes both neighbor iteration order
and the order in which a redraw consumes random draws). -/
structure Graph where
  nodes : List Node
  edges : List Edge
deriving Repr, DecidableEq

/-- The mutable per-edge weights, parallel to `Graph.edges`. -/
abbrev Weights := List (WithTop ℚ)

/-- The road-class factor table of assign_dynamic_weights
(src/dag.py lines 54-64). -/
def weightFactor (e : Edge) : ℚ :=
  if e.highway ∈ [ "service", "cycleway"] then 1/2
  else if e.highway ∈ [ "residential", "unclassified"] then 1
  else if e.highway = "tertiary" then 3/2
  else if e.highway ∈ [ "primary", "secondary", "trunk"] then e.penalty.getD (5/2)
  else 5

/-- One whole-graph weight redraw (assign_dynamic_weights, src/dag.py
lines 45-68): edge number i consumes blocking decision `draws (k + i)`;
a blocked edge gets weight +infinity, otherwise length times the class
factor. -/
def redrawAux (draws : ℕ → Bool) : List Edge → ℕ → Weights
  | [], _ => []
  | e :: rest, j =>
      (if draws j then (⊤ : WithTop ℚ)
       else ((e.length.getD 1 * weightFactor e : ℚ) : WithTop ℚ)) ::
      redrawAux draws rest (j + 1)

/-- assign_dynamic_weights applied to the whole graph, starting at draw
counter k. -/
def assign_dynamic_weights (g : Graph) (draws : ℕ → Bool) (k : ℕ) : Weights :=
  redrawAux draws g.edges k

/-- There is an edge from u to v in the (static) topology. -/
def hasEdge (g : Graph) (u v : Node) : Prop :=
  ∃ e ∈ g.edges, e.u = u ∧ e.v = v

/-- First-occurrence deduplication, modelling the iteration order of a
networkx adjacency dictionary (insertion order of the first edge to each
successor). -/
def dedupFirst : List Node → List Node
  | [] => []
  | x :: xs => x :: (dedupFirst xs).filter (fun y => decide (y ≠ x))

/-- G.neighbors(current) of the source (src/dag.py line 92): the distinct
successor nodes, in adjacency insertion order. -/
def neighbors (g : Graph) (u : Node) : List Node :=
  dedupFirst (g.edges.filterMap (fun e => if e.u = u then some e.v else none))

/-- The current weight of the (cheapest parallel) edge from u to v, +infinity
when there is none; this is the per-step cost a shortest-path query uses on a
multigraph. -/
def edgeWeight (g : Graph) (w : Weights) (u v : Node) : WithTop ℚ :=
  ((g.edges.zip w).filterMap
    (fun ew => if ew.1.u = u ∧ ew.1.v = v then some ew.2 else none)).foldr min ⊤

/-- Total weight of a node sequence under the current weights. -/
def pathCost (g : Graph) (w : Weights) : List Node → WithTop ℚ
  | [] => 0
  | [_] => 0
  | a :: b :: rest => edgeWeight g w a b + pathCost g w (b :: rest)

/-- Modelled from the spec: the ShortestPathOracle (spec section 4.3) is
realised in the source by networkx library calls that are not part of this
repository, so the oracle is modelled from the spec's contract.  This
enumerates the simple paths of the static topology from u to v (bounded by
the fuel, which exceeds the length of any simple path when called through
`simplePaths`). -/
def simplePathsAux (g : Graph) : ℕ → Node → Node → List Node → List (List Node)
  | 0, u, v, _ => if u = v then [[v]] else []
  | fuel' + 1, u, v, visited =>
    if u = v then [[v]]
    else
      ((neighbors g u).filter (fun s => decide (s ∉ u :: visited))).flatMap
        (fun s => (simplePathsAux g fuel' s v (u :: visited)).map (u :: ·))

/-- All simple paths from u to v in the topology of g. -/
def simplePaths (g : Graph) (u v : Node) : List (List Node) :=
  simplePathsAux g (g.edges.length + 1) u v []

/-- Modelled from the spec: oracle distance (spec section 4.3) — the minimum
current-weight cost over all simple paths, +infinity when the destination is
unreachable through finite-weight edges.  Under the spec's precondition of
non-negative lengths this is the shortest-path distance, with +infinity edges
behaving as removed. -/
def shortest_path_length (g : Graph) (w : Weights) (u v : Node) : WithTop ℚ :=
  ((simplePaths g u v).map (pathCost g w)).foldr min ⊤

/-- Modelled from the spec: oracle path query (spec section 4.3) — the first
simple path attaining the minimal finite cost, or none (the Unreachable
outcome) when no finite-cost path exists. -/
def shortest_path (g : Graph) (w : Weights) (u v : Node) : Option (List Node) :=
  let m := shortest_path_length g w u v
  if m = ⊤ then none
  else (simplePaths g u v).find? (fun p => decide (pathCost g w p = m))

/-- The error outcomes of the embedded planner: the ZeroDivisionError raised
by `avg_cost = sum(simulated_costs) / rollouts` at rollouts = 0, and
exhaustion of the loop fuel of the embedding. -/
inductive PErr
  | divZero
  | fuelOut
deriving Repr, DecidableEq

instance {ε α : Type} [DecidableEq ε] [DecidableEq α] :
    DecidableEq (Except ε α) := fun x y =>
  match x, y with
  | .error a, .error b =>
      if h : a = b then .isTrue (by rw [h])
      else .isFalse (fun hc => h (Except.error.inj hc))
  | .ok a, .ok b =>
      if h : a = b then .isTrue (by rw [h])
      else .isFalse (fun hc => h (Except.ok.inj hc))
  | .error _, .ok _ => .isFalse (fun hc => Except.noConfusion hc)
  | .ok _, .error _ => .isFalse (fun hc => Except.noConfusion hc)

/-- Sum of the simulated costs: Python's sum(), with +infinity absorbing. -/
def wsum (l : List (WithTop ℚ)) : WithTop ℚ := l.foldr (· + ·) 0

/-- Division of an accumulated cost by the (positive) rollout count;
+infinity divided by a positive count stays +infinity. -/
def wdiv (x : WithTop ℚ) (r : ℕ) : WithTop ℚ :=
  WithTop.map (fun q => q / (r : ℚ)) x

/-- One candidate evaluation of online_planning (src/dag.py lines 104-113):
redraw the whole graph's weights once, then run `rollouts` trials each
querying the oracle distance from the candidate to the destination, and
return the arithmetic mean; rollouts = 0 reaches the division by zero. -/
def scoreOne (g : Graph) (dest : Node) (r : ℕ) (draws : ℕ → Bool)
    (nb : Node) (k : ℕ) : Except PErr (WithTop ℚ) :=
  let w' := assign_dynamic_weights g draws k
  let simulated_costs := (List.range r).map
    (fun _ => shortest_path_length g w' nb dest)
  if r = 0 then .error .divZero else .ok (wdiv (wsum simulated_costs) r)

/-- Modelled from the spec: the RolloutEvaluator exactly as the spec words
it (spec section 4.4), for comparison with the source's `scoreOne` — for
`rollouts` independent trials, each trial FIRST redraws the entire graph's
weights (trial i consuming the i-th whole-graph block of draws) and then
queries the oracle distance; the score is the arithmetic mean of the trial
distances. -/
def scoreSpec (g : Graph) (dest : Node) (r : ℕ) (draws : ℕ → Bool)
    (nb : Node) (k : ℕ) : Except PErr (WithTop ℚ) :=
  let simulated_costs := (List.range r).map
    (fun i => shortest_path_length g
      (assign_dynamic_weights g draws (k + i * g.edges.length)) nb dest)
  if r = 0 then .error .divZero else .ok (wdiv (wsum simulated_costs) r)

/-- The scores of a list of candidates, in order, threading the draw counter
(each evaluation consumes one whole-graph redraw). -/
def scoresOf (g : Graph) (dest : Node) (r : ℕ) (draws : ℕ → Bool) :
    List Node → ℕ → Except PErr (List (Node × WithTop ℚ))
  | [], _ => .ok []
  | nb :: rest, k =>
      match scoreOne g dest r draws nb k with
      | .error e => .error e
      | .ok s =>
          match scoresOf g dest r draws rest (k + g.edges.length) with
          | .error e => .error e
          | .ok l => .ok ((nb, s) :: l)

/-- The best-choice fold of online_planning (src/dag.py lines 102-116):
starting from best_choice = None, best_score = +infinity, replace the best
exactly when a score is strictly smaller; ties keep the earlier candidate.
The source interleaves this fold with the score computations; since a score
never depends on the running best, folding over the precomputed score list
is the same computation. -/
def selectBest : Option Node → WithTop ℚ → List (Node × WithTop ℚ) → Option Node
  | best, _, [] => best
  | best, bs, (n, s) :: rest =>
      if s < bs then selectBest (some n) s rest else selectBest best bs rest

/-- The fallback of online_planning (src/dag.py lines 94-101 and 117-125):
query the oracle for a global shortest path from the current node and append
it without repeating the current node; an Unreachable outcome yields the
empty result. -/
def fallbackResult (g : Graph) (w : Weights) (current dest : Node)
    (path : List Node) : List Node :=
  match shortest_path g w current dest with
  | some sp => path ++ sp.tail
  | none => []

/-- The while loop of online_planning (src/dag.py lines 91-127), with
explicit fuel (the loop provably terminates: each advancing step appends a
node not yet in the path). -/
def planLoop (g : Graph) (dest : Node) (r : ℕ) (draws : ℕ → Bool) :
    ℕ → Node → List Node → Weights → ℕ → Except PErr (List Node)
  | 0, current, path, _, _ =>
    if current = dest then .ok path else .error .fuelOut
  | fuel' + 1, current, path, w, k =>
    if current = dest then .ok path
    else
        let nbs := neighbors g current
        if nbs = [] then .ok (fallbackResult g w current dest path)
        else
          match scoresOf g dest r draws nbs k with
          | .error e => .error e
          | .ok scored =>
            let w' := assign_dynamic_weights g draws
              (k + (nbs.length - 1) * g.edges.length)
            let k' := k + nbs.length * g.edges.length
            match selectBest none ⊤ scored with
            | none => .ok (fallbackResult g w' current dest path)
            | some c =>
              if c ∈ path then .ok (fallbackResult g w' current dest path)
              else planLoop g dest r draws fuel' c (path ++ [c]) w' k'

/-- online_planning (src/dag.py lines 87-128).  w0 is the graph's weight
vector on entry (the module-level assign_dynamic_weights of line 70); draws
is the stream of blocking decisions of the ambient RNG. -/
def online_planning (g : Graph) (origin dest : Node) (r : ℕ)
    (w0 : Weights) (draws : ℕ → Bool) : Except PErr (List Node) :=
  planLoop g dest r draws (g.edges.length + 2) origin [origin] w0 0

/-! ### Concrete inputs used by counterexamples and witnesses -/

/-- A residential edge of length 1 (the worked examples of the spec use this
road class, whose factor is 1). -/
def re (u v : Node) : Edge := ⟨u, v, some 1, "residential", none⟩

/-- A two-node graph with the single edge 0 → 1. -/
def gOne : Graph := ⟨[0, 1], [re 0 1]⟩

/-- Blocking stream that blocks exactly draw number 1 (the second redraw of
`gOne`'s only edge). -/
def dOne : ℕ → Bool := fun n => n == 1

/-- The six-node graph 0 → 1 → 2, 2 → 3, 2 → 4, 3 → 1, 4 → 5 used to refute
the `n + 1` path-length bound. -/
def gSix : Graph :=
  ⟨[0, 1, 2, 3, 4, 5], [re 0 1, re 1 2, re 2 3, re 2 4, re 3 1, re 4 5]⟩

/-- Blocking stream that blocks exactly draw number 23: the edge 4 → 5
during the evaluation of candidate 4 at node 2 (the fourth redraw's last
edge). -/
def dSix : ℕ → Bool := fun n => n == 23

/-- All-ones initial weight vector for `gSix`. -/
def wSix : Weights := List.replicate 6 ((1 : ℚ) : WithTop ℚ)

/-- The tie-break graph: node 0 has the neighbors 5 then 3 (adjacency
insertion order), both one residential edge away from destination 9. -/
def gTie : Graph := ⟨[0, 5, 3, 9], [re 0 5, re 0 3, re 5 9, re 3 9]⟩

/-- The blocking stream that never blocks. -/
def dNone : ℕ → Bool := fun _ => false

/-- All-ones initial weight vector for `gTie`. -/
def wTie : Weights := List.replicate 4 ((1 : ℚ) : WithTop ℚ)

/-! ### Arithmetic of the evaluator -/

theorem wsum_replicate_top {n : ℕ} (h : n ≠ 0) :
    wsum (List.replicate n (⊤ : WithTop ℚ)) = ⊤ := by
  cases n with
  | zero => exact absurd rfl h
  | succ m => simp [wsum, List.replicate_succ]

theorem wsum_replicate_coe (n : ℕ) (q : ℚ) :
    wsum (List.replicate n ((q : ℚ) : WithTop ℚ)) = ((n * q : ℚ) : WithTop ℚ) := by
  induction n with
  | zero => simp [wsum]
  | succ m ih =>
      rw [List.replicate_succ, wsum, List.foldr_cons]
      rw [show List.foldr (· + ·) 0 (List.replicate m ((q : ℚ) : WithTop ℚ)) =
        wsum (List.replicate m ((q : ℚ) : WithTop ℚ)) from rfl, ih]
      rw [← WithTop.coe_add]
      congr 1
      push_cast
      ring

/-- Helper: a candidate evaluation with a positive rollout count returns the
single post-redraw oracle distance. -/
theorem scoreOne_eq_single (g : Graph) (dest : Node) {r : ℕ} (draws : ℕ → Bool)
    (nb : Node) (k : ℕ) (h : r ≠ 0) :
    scoreOne g dest r draws nb k =
      .ok (shortest_path_length g (assign_dynamic_weights g draws k) nb dest) := by
  unfold scoreOne
  rw [if_neg h]
  congr 1
  rw [List.map_const', List.length_range]
  induction shortest_path_length g (assign_dynamic_weights g draws k) nb dest
    using WithTop.recTopCoe with
  | top => rw [wsum_replicate_top h]; rfl
  | coe q =>
      rw [wsum_replicate_coe]
      show (((r * q : ℚ) / (r : ℚ) : ℚ) : WithTop ℚ) = _
      rw [mul_div_cancel_left₀ q (by exact_mod_cast h : (r : ℚ) ≠ 0)]

/-! ### Unfolding lemmas for the planning loop -/

theorem planLoop_entry (g : Graph) (dest : Node) (r : ℕ) (draws : ℕ → Bool)
    (fuel : ℕ) (current : Node) (path : List Node) (w : Weights) (k : ℕ)
    (h : current = dest) :
    planLoop g dest r draws fuel current path w k = .ok path := by
  cases fuel <;> simp [planLoop, h]

theorem planLoop_divZero (g : Graph) (dest : Node) (draws : ℕ → Bool)
    (fuel' : ℕ) (current : Node) (path : List Node) (w : Weights) (k : ℕ)
    (h : current ≠ dest) (hnb : neighbors g current ≠ []) :
    planLoop g dest 0 draws (fuel' + 1) current path w k = .error .divZero := by
  obtain ⟨nb, rest, hsplit⟩ := List.exists_cons_of_ne_nil hnb
  simp only [planLoop, if_neg h, hsplit]
  rfl

/-! ### Claim theorems -/

/-- C8: for every graph g and node x present in g, planning from x to x
returns the single-element path [x] immediately; the result is the same for
every rollout count (including 0, which would fail were any neighbor
evaluated) and for every draw stream, so no neighbor is fetched or
evaluated. -/
theorem plan_trivial_self (g : Graph) (x : Node) (r : ℕ) (w0 : Weights)
    (draws : ℕ → Bool) (_hx : x ∈ g.nodes) :
    online_planning g x x r w0 draws = .ok [x] := by
  unfold online_planning
  exact planLoop_entry g x r draws _ x [x] w0 0 rfl

/-- Witness for C8 on a concrete graph. -/
theorem plan_trivial_self_witness :
    online_planning gOne 0 0 0 [] dNone = .ok [0] :=
  plan_trivial_self gOne 0 0 [] dNone (by decide)

/-- C9: within one candidate evaluation the weights are redrawn once, before
the trial loop, so for every rollouts ≥ 1 the returned mean equals the
single post-redraw shortest-path distance — the score does not depend on the
rollout count. -/
theorem score_independent_of_rollouts (g : Graph) (dest : Node) (r : ℕ)
    (draws : ℕ → Bool) (nb : Node) (k : ℕ) (h : 1 ≤ r) :
    scoreOne g dest r draws nb k =
      .ok (shortest_path_length g (assign_dynamic_weights g draws k) nb dest) :=
  scoreOne_eq_single g dest draws nb k (by omega)

/-- Witness for C9: on the one-edge graph, 3 rollouts return exactly the
single distance 1. -/
theorem score_independent_of_rollouts_witness :
    scoreOne gOne 1 3 dNone 0 0 = .ok ((1 : ℚ) : WithTop ℚ) ∧
      shortest_path_length gOne (assign_dynamic_weights gOne dNone 0) 0 1 =
        ((1 : ℚ) : WithTop ℚ) := by
  constructor
  · rw [score_independent_of_rollouts gOne 1 3 dNone 0 0 (by decide)]
    with_unfolding_all rfl
  · with_unfolding_all rfl

/-- C10: the evaluator divides the accumulated trial costs by `rollouts`;
it is total for rollouts ≥ 1, and a planner call with rollouts = 0 hits the
division by zero at the first candidate evaluation (the first step whose
neighbor list is non-empty). -/
theorem rollouts_zero_division_by_zero (g : Graph) (o dest : Node)
    (draws : ℕ → Bool) (w0 : Weights) (nb : Node) (k r : ℕ) :
    (1 ≤ r → ∃ q, scoreOne g dest r draws nb k = .ok q) ∧
      (o ≠ dest → neighbors g o ≠ [] →
        online_planning g o dest 0 w0 draws = .error .divZero) := by
  constructor
  · intro h
    exact ⟨_, scoreOne_eq_single g dest draws nb k (by omega)⟩
  · intro ho hnb
    unfold online_planning
    exact planLoop_divZero g dest draws _ o [o] w0 0 ho hnb

/-- Witness for C10 on the one-edge graph. -/
theorem rollouts_zero_division_by_zero_witness :
    (∃ q, scoreOne gOne 1 1 dNone 0 0 = .ok q) ∧
      online_planning gOne 0 1 0 [] dNone = .error .divZero := by
  refine ⟨(rollouts_zero_division_by_zero gOne 0 1 dNone [] 0 0 1).1 (by decide),
    (rollouts_zero_division_by_zero gOne 0 1 dNone [] 0 0 1).2 (by decide) ?_⟩
  decide

/-- C1 (counterexample): the code's evaluator is NOT the per-trial-redraw
evaluator of the claim.  On the one-edge graph with the stream blocking only
the second redraw, the code redraws once (unblocked) and scores 1, while the
claimed per-trial-redraw evaluator would see the second trial blocked and
score +infinity. -/
theorem score_redraw_per_trial_counterexample :
    scoreOne gOne 1 2 dOne 0 0 = .ok ((1 : ℚ) : WithTop ℚ) ∧
      scoreSpec gOne 1 2 dOne 0 0 = .ok (⊤ : WithTop ℚ) ∧
      (Except.ok ((1 : ℚ) : WithTop ℚ) : Except PErr (WithTop ℚ)) ≠
        .ok (⊤ : WithTop ℚ) := by
  refine ⟨by with_unfolding_all rfl, by with_unfolding_all rfl, fun h => ?_⟩
  exact WithTop.coe_ne_top (Except.ok.inj h)

/-- C1 (amended): for every candidate, the evaluator redraws the entire
graph's weights ONCE, before the trial loop; each of the `rollouts` trials
then queries the distance under those same weights, and the score is the
arithmetic mean of the `rollouts` (identical) trial distances, +infinity
included. -/
theorem score_single_redraw_mean (g : Graph) (dest : Node) (r : ℕ)
    (draws : ℕ → Bool) (nb : Node) (k : ℕ) :
    scoreOne g dest r draws nb k =
      if r = 0 then .error .divZero
      else .ok (wdiv (wsum (List.replicate r
        (shortest_path_length g (assign_dynamic_weights g draws k) nb dest))) r) := by
  unfold scoreOne
  by_cases h : r = 0
  · simp [h]
  · rw [if_neg h, if_neg h]
    congr 2
    rw [List.map_const', List.length_range]

theorem redrawAux_getElem? (draws : ℕ → Bool) (es : List Edge) (j i : ℕ) :
    (redrawAux draws es j)[i]? = es[i]?.map (fun e =>
      if draws (j + i) then (⊤ : WithTop ℚ)
      else ((e.length.getD 1 * weightFactor e : ℚ) : WithTop ℚ)) := by
  induction es generalizing j i with
  | nil => simp [redrawAux]
  | cons e rest ih =>
      cases i with
      | zero => simp [redrawAux]
      | succ m =>
          simp only [redrawAux, List.getElem?_cons_succ]
          rw [ih, show j + 1 + m = j + (m + 1) from by omega]

/-- C6: every redraw sets, for every edge, weight = length * factor, where
the factor comes from the road-class table (service/cycleway 0.5,
residential/unclassified 1.0, tertiary 1.5, primary/secondary/trunk the
configured penalty defaulting to 2.5, anything else 5.0), unless the edge is
independently drawn as blocked, in which case the weight is +infinity. -/
theorem redraw_weights_table (g : Graph) (draws : ℕ → Bool) (k i : ℕ)
    (e : Edge) (he : g.edges[i]? = some e) :
    (assign_dynamic_weights g draws k)[i]? =
      some (if draws (k + i) then (⊤ : WithTop ℚ)
        else ((e.length.getD 1 * weightFactor e : ℚ) : WithTop ℚ)) ∧
    (e.highway = "service" ∨ e.highway = "cycleway" → weightFactor e = 1/2) ∧
    (e.highway = "residential" ∨ e.highway = "unclassified" →
      weightFactor e = 1) ∧
    (e.highway = "tertiary" → weightFactor e = 3/2) ∧
    (e.highway = "primary" ∨ e.highway = "secondary" ∨ e.highway = "trunk" →
      weightFactor e = e.penalty.getD (5/2)) ∧
    (e.highway ∉ [ "service", "cycleway", "residential", "unclassified",
      "tertiary", "primary", "secondary", "trunk"] → weightFactor e = 5) := by
  refine ⟨?_, ?_, ?_, ?_, ?_, ?_⟩
  · rw [assign_dynamic_weights, redrawAux_getElem?, he]; rfl
  · rintro (h | h) <;> simp [weightFactor, h]
  · rintro (h | h) <;> simp [weightFactor, h]
  · intro h; simp [weightFactor, h]
  · rintro (h | h | h) <;> simp [weightFactor, h]
  · intro h
    simp only [List.mem_cons, List.not_mem_nil, or_false] at h
    push_neg at h
    obtain ⟨h1, h2, h3, h4, h5, h6, h7, h8⟩ := h
    simp [weightFactor, h1, h2, h3, h4, h5, h6, h7, h8]

/-- Witness for C6 on the one-edge graph. -/
theorem redraw_weights_table_witness :
    (assign_dynamic_weights gOne dNone 0)[0]? =
      some (if dNone (0 + 0) then (⊤ : WithTop ℚ)
        else (((re 0 1).length.getD 1 * weightFactor (re 0 1) : ℚ) : WithTop ℚ)) :=
  (redraw_weights_table gOne dNone 0 0 (re 0 1) (by rfl)).1

/-! ### Soundness of the simple-path enumeration -/

theorem mem_dedupFirst {x : Node} :
    ∀ {l : List Node}, x ∈ dedupFirst l → x ∈ l := by
  intro l
  induction l with
  | nil => simp [dedupFirst]
  | cons y ys ih =>
      intro h
      rw [dedupFirst] at h
      rcases List.mem_cons.1 h with h | h
      · exact h ▸ List.mem_cons_self y ys
      · exact List.mem_cons_of_mem y (ih (List.mem_of_mem_filter h))

theorem hasEdge_of_mem_neighbors {g : Graph} {u nb : Node}
    (h : nb ∈ neighbors g u) : hasEdge g u nb := by
  obtain ⟨e, he, heq⟩ := List.mem_filterMap.1 (mem_dedupFirst h)
  by_cases hu : e.u = u
  · rw [if_pos hu] at heq
    exact ⟨e, he, hu, Option.some.inj heq⟩
  · rw [if_neg hu] at heq
    exact absurd heq (Option.noConfusion)

theorem simplePathsAux_sound (g : Graph) :
    ∀ (fuel : ℕ) (u v : Node) (visited : List Node) (p : List Node),
      p ∈ simplePathsAux g fuel u v visited →
      p.head? = some u ∧ p.getLast? = some v ∧ p.Chain' (hasEdge g) := by
  intro fuel
  induction fuel with
  | zero =>
      intro u v visited p hp
      rw [simplePathsAux] at hp
      by_cases huv : u = v
      · rw [if_pos huv, List.mem_singleton] at hp
        subst hp; subst huv
        exact ⟨rfl, rfl, List.chain'_singleton u⟩
      · rw [if_neg huv] at hp
        exact absurd hp (List.not_mem_nil p)
  | succ fuel ih =>
      intro u v visited p hp
      rw [simplePathsAux] at hp
      by_cases huv : u = v
      · rw [if_pos huv, List.mem_singleton] at hp
        subst hp; subst huv
        exact ⟨rfl, rfl, List.chain'_singleton u⟩
      · rw [if_neg huv] at hp
        obtain ⟨s, hs, hp⟩ := List.mem_flatMap.1 hp
        obtain ⟨q, hq, hpq⟩ := List.mem_map.1 hp
        obtain ⟨hqh, hql, hqc⟩ := ih s v (u :: visited) q hq
        have hsnb : s ∈ neighbors g u := List.mem_of_mem_filter hs
        cases q with
        | nil => exact absurd hqh (by simp)
        | cons a q' =>
            have ha : a = s := Option.some.inj hqh
            subst ha
            subst hpq
            refine ⟨rfl, ?_, ?_⟩
            · rw [List.getLast?_cons_cons]
              exact hql
            · exact List.chain'_cons.2 ⟨hasEdge_of_mem_neighbors hsnb, hqc⟩

theorem simplePathsAux_nodup (g : Graph) :
    ∀ (fuel : ℕ) (u v : Node) (visited : List Node) (p : List Node),
      u ∉ visited → p ∈ simplePathsAux g fuel u v visited →
      p.Nodup ∧ ∀ x ∈ p, x ∉ visited := by
  intro fuel
  induction fuel with
  | zero =>
      intro u v visited p hu hp
      rw [simplePathsAux] at hp
      by_cases huv : u = v
      · rw [if_pos huv, List.mem_singleton] at hp
        subst hp
        refine ⟨List.nodup_singleton v, ?_⟩
        intro x hx
        rw [List.mem_singleton] at hx
        subst hx
        exact huv ▸ hu
      · rw [if_neg huv] at hp
        exact absurd hp (List.not_mem_nil p)
  | succ fuel ih =>
      intro u v visited p hu hp
      rw [simplePathsAux] at hp
      by_cases huv : u = v
      · rw [if_pos huv, List.mem_singleton] at hp
        subst hp
        refine ⟨List.nodup_singleton v, ?_⟩
        intro x hx
        rw [List.mem_singleton] at hx
        subst hx
        exact huv ▸ hu
      · rw [if_neg huv] at hp
        obtain ⟨s, hs, hp⟩ := List.mem_flatMap.1 hp
        obtain ⟨q, hq, hpq⟩ := List.mem_map.1 hp
        have hsv : s ∉ u :: visited := by
          have := List.of_mem_filter hs
          simpa using this
        obtain ⟨hqn, hqv⟩ := ih s v (u :: visited) q hsv hq
        subst hpq
        constructor
        · refine List.nodup_cons.2 ⟨?_, hqn⟩
          intro hmem
          exact hqv u hmem (List.mem_cons_self u visited)
        · intro x hx
          rcases List.mem_cons.1 hx with hx | hx
          · exact hx ▸ hu
          · intro hxv
            exact hqv x hx (List.mem_cons_of_mem u hxv)

theorem simplePathsAux_mem_targets (g : Graph) :
    ∀ (fuel : ℕ) (u v : Node) (visited : List Node) (p : List Node),
      p ∈ simplePathsAux g fuel u v visited →
      ∀ x ∈ p, x = u ∨ ∃ e ∈ g.edges, e.v = x := by
  intro fuel
  induction fuel with
  | zero =>
      intro u v visited p hp x hx
      rw [simplePathsAux] at hp
      by_cases huv : u = v
      · rw [if_pos huv, List.mem_singleton] at hp
        subst hp
        rw [List.mem_singleton] at hx
        exact Or.inl (hx.trans huv.symm)
      · rw [if_neg huv] at hp
        exact absurd hp (List.not_mem_nil p)
  | succ fuel ih =>
      intro u v visited p hp x hx
      rw [simplePathsAux] at hp
      by_cases huv : u = v
      · rw [if_pos huv, List.mem_singleton] at hp
        subst hp
        rw [List.mem_singleton] at hx
        exact Or.inl (hx.trans huv.symm)
      · rw [if_neg huv] at hp
        obtain ⟨s, hs, hp⟩ := List.mem_flatMap.1 hp
        obtain ⟨q, hq, hpq⟩ := List.mem_map.1 hp
        subst hpq
        rcases List.mem_cons.1 hx with hx | hx
        · exact Or.inl hx
        · rcases ih s v (u :: visited) q hq x hx with hxs | hxe
          · subst hxs
            obtain ⟨e, he, heu, hev⟩ :=
              hasEdge_of_mem_neighbors (List.mem_of_mem_filter hs)
            exact Or.inr ⟨e, he, hev⟩
          · exact Or.inr hxe

theorem rtg_of_chain {R : Node → Node → Prop} :
    ∀ (p : List Node) (u v : Node), p.head? = some u → p.getLast? = some v →
      p.Chain' R → Relation.ReflTransGen R u v := by
  intro p
  induction p with
  | nil => intro u v h; exact absurd h (by simp)
  | cons a q ih =>
      intro u v hh hl hc
      have ha : a = u := Option.some.inj hh
      subst ha
      cases q with
      | nil =>
          have : a = v := Option.some.inj hl
          exact this ▸ Relation.ReflTransGen.refl
      | cons b q' =>
          rw [List.getLast?_cons_cons] at hl
          obtain ⟨hab, hc'⟩ := List.chain'_cons.1 hc
          exact Relation.ReflTransGen.head hab (ih b v rfl hl hc')

theorem rtg_of_mem_simplePaths {g : Graph} {u v : Node} {p : List Node}
    (hp : p ∈ simplePaths g u v) : Relation.ReflTransGen (hasEdge g) u v := by
  obtain ⟨hh, hl, hc⟩ := simplePathsAux_sound g _ u v [] p hp
  exact rtg_of_chain p u v hh hl hc

theorem simplePaths_eq_nil_of_not_rtg {g : Graph} {u v : Node}
    (h : ¬ Relation.ReflTransGen (hasEdge g) u v) : simplePaths g u v = [] := by
  refine List.eq_nil_iff_forall_not_mem.2 (fun p hp => ?_)
  exact h (rtg_of_mem_simplePaths hp)

theorem shortest_path_length_top_of_not_rtg {g : Graph} (w : Weights)
    {u v : Node} (h : ¬ Relation.ReflTransGen (hasEdge g) u v) :
    shortest_path_length g w u v = ⊤ := by
  rw [shortest_path_length, simplePaths_eq_nil_of_not_rtg h]
  rfl

theorem shortest_path_none_of_not_rtg {g : Graph} (w : Weights)
    {u v : Node} (h : ¬ Relation.ReflTransGen (hasEdge g) u v) :
    shortest_path g w u v = none := by
  rw [shortest_path, shortest_path_length_top_of_not_rtg w h]
  simp

theorem pathCost_ne_top_chain (g : Graph) (w : Weights) :
    ∀ p : List Node, pathCost g w p ≠ ⊤ →
      p.Chain' (fun a b => edgeWeight g w a b ≠ ⊤) := by
  intro p
  induction p with
  | nil => intro _; exact List.chain'_nil
  | cons a q ih =>
      cases q with
      | nil => intro _; exact List.chain'_singleton a
      | cons b q' =>
          intro h
          rw [pathCost] at h
          rw [WithTop.add_ne_top] at h
          exact List.chain'_cons.2 ⟨h.1, ih h.2⟩

/-- The oracle's returned path starts at the source, ends at the target, and
follows topological edges. -/
theorem shortest_path_sound {g : Graph} {w : Weights} {u v : Node}
    {sp : List Node} (h : shortest_path g w u v = some sp) :
    sp.head? = some u ∧ sp.getLast? = some v ∧ sp ∈ simplePaths g u v := by
  rw [shortest_path] at h
  by_cases hm : shortest_path_length g w u v = ⊤
  · rw [if_pos hm] at h
    exact absurd h (Option.noConfusion)
  · rw [if_neg hm] at h
    have hmem := List.mem_of_find?_eq_some h
    obtain ⟨hh, hl, _⟩ := simplePathsAux_sound g _ u v [] sp hmem
    exact ⟨hh, hl, hmem⟩

/-- There is no walk from 1 to 0 in the one-edge graph 0 → 1. -/
theorem not_rtg_gOne : ¬ Relation.ReflTransGen (hasEdge gOne) 1 0 := by
  intro h
  rcases h.cases_head with h | ⟨b, ⟨e, he, heu, _⟩, _⟩
  · exact absurd h (by decide)
  · rw [show gOne.edges = [re 0 1] from rfl, List.mem_singleton] at he
    subst he
    exact absurd heu (by decide)

/-! ### Claims C3 and C7 -/

/-- C3: the oracle never returns a path that traverses an edge whose current
weight is +infinity (such edges behave as removed), and when the destination
is disconnected from the source it yields the distinguished none
(Unreachable) outcome rather than failing. -/
theorem oracle_avoids_blocked_and_signals_unreachable (g : Graph)
    (w : Weights) (u v : Node) :
    (∀ p, shortest_path g w u v = some p →
      p.Chain' (fun a b => edgeWeight g w a b ≠ ⊤)) ∧
    (¬ Relation.ReflTransGen (hasEdge g) u v →
      shortest_path g w u v = none) := by
  constructor
  · intro p hp
    rw [shortest_path] at hp
    by_cases hm : shortest_path_length g w u v = ⊤
    · rw [if_pos hm] at hp
      exact absurd hp (Option.noConfusion)
    · rw [if_neg hm] at hp
      have hcost := List.find?_some hp
      rw [decide_eq_true_eq] at hcost
      exact pathCost_ne_top_chain g w p (hcost ▸ hm)
  · exact shortest_path_none_of_not_rtg w

/-- Witness for C3: on the one-edge graph the returned path [0, 1] uses only
finite edges, and the disconnected query from 1 to 0 returns none. -/
theorem oracle_avoids_blocked_and_signals_unreachable_witness :
    ([0, 1] : List Node).Chain'
        (fun a b => edgeWeight gOne (assign_dynamic_weights gOne dNone 0) a b ≠ ⊤) ∧
      shortest_path gOne (assign_dynamic_weights gOne dNone 0) 1 0 = none := by
  constructor
  · exact (oracle_avoids_blocked_and_signals_unreachable gOne
      (assign_dynamic_weights gOne dNone 0) 0 1).1 [0, 1]
      (by with_unfolding_all rfl)
  · exact (oracle_avoids_blocked_and_signals_unreachable gOne
      (assign_dynamic_weights gOne dNone 0) 1 0).2 not_rtg_gOne

/-! ### Claim C7 -/

theorem scoresOf_all_top {g : Graph} {dest : Node} {r : ℕ} {draws : ℕ → Bool}
    (hr : r ≠ 0) :
    ∀ (nbs : List Node) (k : ℕ),
      (∀ nb ∈ nbs, ¬ Relation.ReflTransGen (hasEdge g) nb dest) →
      scoresOf g dest r draws nbs k =
        .ok (nbs.map (fun nb => (nb, (⊤ : WithTop ℚ)))) := by
  intro nbs
  induction nbs with
  | nil => intro k _; rfl
  | cons nb rest ih =>
      intro k hall
      rw [scoresOf]
      rw [scoreOne_eq_single g dest draws nb k hr,
        shortest_path_length_top_of_not_rtg _ (hall nb (List.mem_cons_self nb rest)),
        ih (k + g.edges.length)
          (fun x hx => hall x (List.mem_cons_of_mem nb hx))]
      rfl

theorem selectBest_all_top :
    ∀ (l : List (Node × WithTop ℚ)) (best : Option Node),
      (∀ x ∈ l, x.2 = (⊤ : WithTop ℚ)) → selectBest best ⊤ l = best := by
  intro l
  induction l with
  | nil => intro best _; rfl
  | cons x rest ih =>
      intro best hall
      obtain ⟨n, s⟩ := x
      have hs : s = ⊤ := hall (n, s) (List.mem_cons_self _ rest)
      rw [selectBest, hs, if_neg (lt_irrefl (⊤ : WithTop ℚ))]
      exact ih best (fun y hy => hall y (List.mem_cons_of_mem _ hy))

theorem planLoop_unreachable (g : Graph) (dest : Node) (r : ℕ)
    (draws : ℕ → Bool) (fuel' : ℕ) (o : Node) (path : List Node)
    (w : Weights) (k : ℕ) (hr : r ≠ 0)
    (h : ¬ Relation.ReflTransGen (hasEdge g) o dest) :
    planLoop g dest r draws (fuel' + 1) o path w k = .ok [] := by
  have hod : o ≠ dest := fun he => h (he ▸ Relation.ReflTransGen.refl)
  have hnbtop : ∀ nb ∈ neighbors g o,
      ¬ Relation.ReflTransGen (hasEdge g) nb dest := by
    intro nb hnb hrtg
    exact h (Relation.ReflTransGen.head (hasEdge_of_mem_neighbors hnb) hrtg)
  rw [planLoop]
  rw [if_neg hod]
  by_cases hnb : neighbors g o = []
  · simp only [hnb, if_pos]
    rw [fallbackResult, shortest_path_none_of_not_rtg w h]
  · have hsel : selectBest none ⊤
        ((neighbors g o).map (fun nb => (nb, (⊤ : WithTop ℚ)))) = none :=
      selectBest_all_top _ none (by simp)
    simp only [if_neg hnb, scoresOf_all_top hr (neighbors g o) k hnbtop, hsel]
    rw [fallbackResult, shortest_path_none_of_not_rtg _ h]

/-- C7: when no path exists between origin and destination in the graph's
topology (even ignoring blocking), the planner returns the empty sequence,
and it does so for every stream of random draws — any two runs on such an
input produce the same empty result. -/
theorem plan_unreachable_empty (g : Graph) (o dest : Node) (r : ℕ)
    (w0 : Weights) (draws : ℕ → Bool) (hr : 1 ≤ r)
    (h : ¬ Relation.ReflTransGen (hasEdge g) o dest) :
    online_planning g o dest r w0 draws = .ok [] := by
  unfold online_planning
  exact planLoop_unreachable g dest r draws _ o [o] w0 0 (by omega) h

/-- Witness for C7: planning from 1 to 0 on the one-edge graph 0 → 1. -/
theorem plan_unreachable_empty_witness :
    online_planning gOne 1 0 1 [] dNone = .ok [] :=
  plan_unreachable_empty gOne 1 0 1 [] dNone (by decide) not_rtg_gOne

/-! ### Claim C5 -/

theorem fallbackResult_spec {g : Graph} {w : Weights} {current dest : Node}
    {path : List Node} (hcd : current ≠ dest)
    (_hlast : path.getLast? = some current) :
    fallbackResult g w current dest path = [] ∨
      (fallbackResult g w current dest path).getLast? = some dest := by
  cases hsp : shortest_path g w current dest with
  | none => exact Or.inl (by rw [fallbackResult, hsp])
  | some sp =>
      obtain ⟨hh, hl, _⟩ := shortest_path_sound hsp
      right
      have hfb : fallbackResult g w current dest path = path ++ sp.tail := by
        rw [fallbackResult, hsp]
      rw [hfb]
      cases sp with
      | nil => exact absurd hh (by simp)
      | cons a sp' =>
          have ha : a = current := Option.some.inj hh
          subst ha
          cases sp' with
          | nil => exact absurd (Option.some.inj hl) hcd
          | cons b t =>
              rw [List.getLast?_cons_cons] at hl
              rw [List.tail_cons, List.getLast?_append_of_ne_nil path
                (List.cons_ne_nil b t)]
              exact hl

theorem planLoop_ends (g : Graph) (dest : Node) (r : ℕ) (draws : ℕ → Bool) :
    ∀ (fuel : ℕ) (current : Node) (path : List Node) (w : Weights) (k : ℕ)
      (p : List Node), path.getLast? = some current →
      planLoop g dest r draws fuel current path w k = .ok p →
      p = [] ∨ p.getLast? = some dest := by
  intro fuel
  induction fuel with
  | zero =>
      intro current path w k p hlast h
      rw [planLoop] at h
      by_cases hcd : current = dest
      · rw [if_pos hcd] at h
        right
        rw [← Except.ok.inj h, ← hcd]
        exact hlast
      · rw [if_neg hcd] at h
        exact absurd h (Except.noConfusion)
  | succ fuel ih =>
      intro current path w k p hlast h
      rw [planLoop] at h
      by_cases hcd : current = dest
      · rw [if_pos hcd] at h
        right
        rw [← Except.ok.inj h, ← hcd]
        exact hlast
      · rw [if_neg hcd] at h
        by_cases hnb : neighbors g current = []
        · simp only [hnb, if_pos] at h
          rw [← Except.ok.inj h]
          exact fallbackResult_spec hcd hlast
        · simp only [if_neg hnb] at h
          split at h
          · exact Except.noConfusion h
          · split at h
            · rw [← Except.ok.inj h]
              exact fallbackResult_spec hcd hlast
            · split at h
              · rw [← Except.ok.inj h]
                exact fallbackResult_spec hcd hlast
              · exact ih _ (path ++ [_]) _ _ p (List.getLast?_concat path) h

/-- C5: the planner's successful return value is either a well-formed path
whose last element is the destination (the fallback path being appended
without repeating the current node, which is already last in the path) or
the empty sequence; it never returns a non-empty path not ending at the
destination. -/
theorem plan_result_binary (g : Graph) (o dest : Node) (r : ℕ) (w0 : Weights)
    (draws : ℕ → Bool) (p : List Node)
    (h : online_planning g o dest r w0 draws = .ok p) :
    p = [] ∨ p.getLast? = some dest := by
  unfold online_planning at h
  exact planLoop_ends g dest r draws _ o [o] w0 0 p rfl h

/-- Witness for C5 on a concrete successful run. -/
theorem plan_result_binary_witness :
    ([0, 5, 9] : List Node) = [] ∨
      ([0, 5, 9] : List Node).getLast? = some 9 :=
  plan_result_binary gTie 0 9 1 wTie dNone [0, 5, 9]
    (by with_unfolding_all rfl)

/-! ### Claim C4 -/

theorem selectBest_spec :
    ∀ (l : List (Node × WithTop ℚ)) (best : Option Node) (bs : WithTop ℚ)
      (c : Node), selectBest best bs l = some c →
      (best = some c ∧ ∀ x ∈ l, bs ≤ x.2) ∨
        (∃ pre s post, l = pre ++ (c, s) :: post ∧ s < bs ∧
          (∀ x ∈ pre, s < x.2) ∧ (∀ x ∈ post, s ≤ x.2)) := by
  intro l
  induction l with
  | nil => intro best bs c h; exact Or.inl ⟨h, by simp⟩
  | cons x rest ih =>
      intro best bs c h
      obtain ⟨n, sc⟩ := x
      rw [selectBest] at h
      by_cases hlt : sc < bs
      · rw [if_pos hlt] at h
        rcases ih (some n) sc c h with ⟨hb, hall⟩ |
          ⟨pre, s, post, heq, hs, hpre, hpost⟩
        · right
          have hnc : n = c := Option.some.inj hb
          subst hnc
          exact ⟨[], sc, rest, rfl, hlt, by simp, hall⟩
        · right
          refine ⟨(n, sc) :: pre, s, post, by rw [heq]; rfl,
            lt_trans hs hlt, ?_, hpost⟩
          intro y hy
          rcases List.mem_cons.1 hy with hy | hy
          · rw [hy]; exact hs
          · exact hpre y hy
      · rw [if_neg hlt] at h
        have hble : bs ≤ sc := not_lt.1 hlt
        rcases ih best bs c h with ⟨hb, hall⟩ |
          ⟨pre, s, post, heq, hs, hpre, hpost⟩
        · left
          refine ⟨hb, ?_⟩
          intro y hy
          rcases List.mem_cons.1 hy with hy | hy
          · rw [hy]; exact hble
          · exact hall y hy
        · right
          refine ⟨(n, sc) :: pre, s, post, by rw [heq]; rfl, hs, ?_, hpost⟩
          intro y hy
          rcases List.mem_cons.1 hy with hy | hy
          · rw [hy]; exact lt_of_lt_of_le hs hble
          · exact hpre y hy

/-- C4 (counterexample): at node 0 of `gTie` the two neighbors are evaluated
in adjacency order 5 then 3 and score identically, yet the planner advances
through 5 — not through 3, the lowest identifier among the tied neighbors,
as the claim requires. -/
theorem tie_break_counterexample :
    scoresOf gTie 9 1 dNone (neighbors gTie 0) 0 =
        .ok [(5, ((1 : ℚ) : WithTop ℚ)), (3, ((1 : ℚ) : WithTop ℚ))] ∧
      online_planning gTie 0 9 1 wTie dNone = .ok [0, 5, 9] ∧
      ([0, 5, 9] : List Node) ≠ [0, 3, 9] := by
  refine ⟨by with_unfolding_all rfl, by with_unfolding_all rfl, by decide⟩

/-- C4 (amended): at each advancing step the planner selects the first
neighbor, in the graph's adjacency (insertion) order, whose finite score is
strictly below every earlier neighbor's score and at most every later
neighbor's score — i.e. ties are broken by candidate evaluation order, not
by lowest node identifier. -/
theorem planner_picks_first_strict_min (l : List (Node × WithTop ℚ))
    (c : Node) (h : selectBest none ⊤ l = some c) :
    ∃ pre s post, l = pre ++ (c, s) :: post ∧ s ≠ ⊤ ∧
      (∀ x ∈ pre, s < x.2) ∧ (∀ x ∈ post, s ≤ x.2) := by
  rcases selectBest_spec l none ⊤ c h with ⟨hb, _⟩ |
    ⟨pre, s, post, heq, hs, hpre, hpost⟩
  · exact absurd hb (Option.noConfusion)
  · exact ⟨pre, s, post, heq, lt_top_iff_ne_top.1 hs, hpre, hpost⟩

/-- Witness for the amended C4 at the tied score list of `gTie`. -/
theorem planner_picks_first_strict_min_witness :
    ∃ pre s post,
      ([(5, ((1 : ℚ) : WithTop ℚ)), (3, ((1 : ℚ) : WithTop ℚ))] :
          List (Node × WithTop ℚ)) = pre ++ (5, s) :: post ∧ s ≠ ⊤ ∧
        (∀ x ∈ pre, s < x.2) ∧ (∀ x ∈ post, s ≤ x.2) :=
  planner_picks_first_strict_min _ 5 (by with_unfolding_all rfl)

/-! ### Claim C2 -/

theorem nodup_length_le {l m : List Node} (hn : l.Nodup)
    (hsub : ∀ x ∈ l, x ∈ m) : l.length ≤ m.length := by
  calc l.length = l.toFinset.card := (List.toFinset_card_of_nodup hn).symm
    _ ≤ m.toFinset.card := Finset.card_le_card
        (fun x hx => List.mem_toFinset.2 (hsub x (List.mem_toFinset.1 hx)))
    _ ≤ m.length := m.toFinset_card_le

theorem mem_of_getLast?_eq_some {l : List Node} {a : Node}
    (h : l.getLast? = some a) : a ∈ l := by
  obtain ⟨hne, heq⟩ := List.mem_getLast?_eq_getLast (Option.mem_def.2 h)
  exact heq ▸ List.getLast_mem hne

theorem fallbackResult_length {g : Graph} {w : Weights} {current dest : Node}
    {path : List Node} (hwf : ∀ e ∈ g.edges, e.v ∈ g.nodes)
    (hpn : path.Nodup) (hpm : ∀ x ∈ path, x ∈ g.nodes)
    (hlast : path.getLast? = some current) :
    (fallbackResult g w current dest path).length ≤ 2 * g.nodes.length - 1 := by
  cases hsp : shortest_path g w current dest with
  | none =>
      rw [fallbackResult, hsp]
      simp
  | some sp =>
      have hfb : fallbackResult g w current dest path = path ++ sp.tail := by
        rw [fallbackResult, hsp]
      rw [hfb]
      obtain ⟨hh, _, hmem⟩ := shortest_path_sound hsp
      have hspn : sp.Nodup :=
        (simplePathsAux_nodup g _ current dest [] sp (by simp) hmem).1
      have hspm : ∀ x ∈ sp, x ∈ g.nodes := by
        intro x hx
        rcases simplePathsAux_mem_targets g _ current dest [] sp hmem x hx with
          hxc | ⟨e, he, hev⟩
        · exact hxc ▸ hpm current (mem_of_getLast?_eq_some hlast)
        · exact hev ▸ hwf e he
      have h1 : path.length ≤ g.nodes.length := nodup_length_le hpn hpm
      have h2 : sp.length ≤ g.nodes.length := nodup_length_le hspn hspm
      have h3 : 1 ≤ path.length := by
        cases path with
        | nil => exact absurd hlast (by simp)
        | cons a t => simp
      rw [List.length_append, List.length_tail]
      omega

theorem scoresOf_map_fst {g : Graph} {dest : Node} {r : ℕ} {draws : ℕ → Bool} :
    ∀ (nbs : List Node) (k : ℕ) (scored : List (Node × WithTop ℚ)),
      scoresOf g dest r draws nbs k = .ok scored →
      scored.map Prod.fst = nbs := by
  intro nbs
  induction nbs with
  | nil =>
      intro k scored h
      rw [scoresOf] at h
      rw [← Except.ok.inj h]
      rfl
  | cons nb rest ih =>
      intro k scored h
      rw [scoresOf] at h
      split at h
      · exact Except.noConfusion h
      · split at h
        · exact Except.noConfusion h
        · next l heq =>
            rw [← Except.ok.inj h, List.map_cons, ih _ l heq]

theorem selectBest_mem_fst {l : List (Node × WithTop ℚ)} {c : Node}
    (h : selectBest none ⊤ l = some c) : c ∈ l.map Prod.fst := by
  rcases selectBest_spec l none ⊤ c h with ⟨hb, _⟩ |
    ⟨pre, s, post, heq, _, _, _⟩
  · exact absurd hb (Option.noConfusion)
  · rw [heq]
    simp

theorem planLoop_length (g : Graph) (dest : Node) (r : ℕ) (draws : ℕ → Bool)
    (hwf : ∀ e ∈ g.edges, e.v ∈ g.nodes) :
    ∀ (fuel : ℕ) (current : Node) (path : List Node) (w : Weights) (k : ℕ)
      (p : List Node), path.Nodup → (∀ x ∈ path, x ∈ g.nodes) →
      path.getLast? = some current →
      planLoop g dest r draws fuel current path w k = .ok p →
      p.length ≤ 2 * g.nodes.length - 1 := by
  intro fuel
  induction fuel with
  | zero =>
      intro current path w k p hpn hpm hlast h
      rw [planLoop] at h
      by_cases hcd : current = dest
      · rw [if_pos hcd] at h
        rw [← Except.ok.inj h]
        have h1 : path.length ≤ g.nodes.length := nodup_length_le hpn hpm
        have h3 : 1 ≤ g.nodes.length :=
          List.length_pos.2 (List.ne_nil_of_mem
            (hpm current (mem_of_getLast?_eq_some hlast)))
        omega
      · rw [if_neg hcd] at h
        exact absurd h (Except.noConfusion)
  | succ fuel ih =>
      intro current path w k p hpn hpm hlast h
      rw [planLoop] at h
      by_cases hcd : current = dest
      · rw [if_pos hcd] at h
        rw [← Except.ok.inj h]
        have h1 : path.length ≤ g.nodes.length := nodup_length_le hpn hpm
        have h3 : 1 ≤ g.nodes.length :=
          List.length_pos.2 (List.ne_nil_of_mem
            (hpm current (mem_of_getLast?_eq_some hlast)))
        omega
      · rw [if_neg hcd] at h
        by_cases hnb : neighbors g current = []
        · simp only [hnb, if_pos] at h
          rw [← Except.ok.inj h]
          exact fallbackResult_length hwf hpn hpm hlast
        · simp only [if_neg hnb] at h
          split at h
          · exact Except.noConfusion h
          · next scored heqsc =>
              split at h
              · rw [← Except.ok.inj h]
                exact fallbackResult_length hwf hpn hpm hlast
              · next c hsel =>
                  by_cases hcp : c ∈ path
                  · rw [if_pos hcp] at h
                    rw [← Except.ok.inj h]
                    exact fallbackResult_length hwf hpn hpm hlast
                  · rw [if_neg hcp] at h
                    have hcn : c ∈ g.nodes := by
                      have hcnb : c ∈ neighbors g current :=
                        scoresOf_map_fst _ _ scored heqsc ▸
                          selectBest_mem_fst hsel
                      obtain ⟨e, he, _, hev⟩ := hasEdge_of_mem_neighbors hcnb
                      exact hev ▸ hwf e he
                    refine ih c (path ++ [c]) _ _ p ?_ ?_
                      (List.getLast?_concat path) h
                    · exact List.nodup_append.2 ⟨hpn, List.nodup_singleton c,
                        fun a ha hac => hcp ((List.mem_singleton.1 hac) ▸ ha)⟩
                    · intro x hx
                      rcases List.mem_append.1 hx with hx | hx
                      · exact hpm x hx
                      · exact (List.mem_singleton.1 hx) ▸ hcn

/-- C2 (counterexample): on the six-node graph `gSix` with the draw stream
blocking only the edge 4 → 5 during the evaluation of candidate 4 at node 2,
the cycle guard fires at node 3 and the fallback re-walks already visited
nodes, returning a successful path of length 8 > 6 + 1 = nodes + 1. -/
theorem plan_length_bound_counterexample :
    online_planning gSix 0 5 1 wSix dSix = .ok [0, 1, 2, 3, 1, 2, 4, 5] ∧
      gSix.nodes.length + 1 < ([0, 1, 2, 3, 1, 2, 4, 5] : List Node).length := by
  exact ⟨by with_unfolding_all rfl, by decide⟩

/-- C2 (amended): for a successful result on a graph whose edge targets lie
in its node list, `len(path) ≤ 2 * number_of_nodes(graph) - 1` — the
advancing phase visits pairwise distinct nodes (at most n) and the single
fallback append contributes at most n - 1 further nodes, but the fallback
path may revisit advanced-through nodes, so n + 1 is not a bound. -/
theorem plan_length_bound (g : Graph) (o dest : Node) (r : ℕ) (w0 : Weights)
    (draws : ℕ → Bool) (p : List Node)
    (hwf : ∀ e ∈ g.edges, e.v ∈ g.nodes) (ho : o ∈ g.nodes)
    (h : online_planning g o dest r w0 draws = .ok p) :
    p.length ≤ 2 * g.nodes.length - 1 := by
  unfold online_planning at h
  refine planLoop_length g dest r draws hwf _ o [o] w0 0 p
    (List.nodup_singleton o) ?_ rfl h
  intro x hx
  exact (List.mem_singleton.1 hx) ▸ ho

/-- Witness for the amended C2: the length-8 path of the counterexample run
is within the corrected bound 2 * 6 - 1 = 11. -/
theorem plan_length_bound_witness :
    ([0, 1, 2, 3, 1, 2, 4, 5] : List Node).length ≤
      2 * gSix.nodes.length - 1 :=
  plan_length_bound gSix 0 5 1 wSix dSix _ (by decide) (by decide)
    (by with_unfolding_all rfl)

end CyclingNav
